import Mathlib

/-!
Verification development for the `musical-typing` typing-trainer
(`src/main.rs`).  The Rust source is shallowly embedded: strings become
`List Char`, `f64` becomes `ℚ`, `HashMap` becomes total functions (with the
`or_insert(0)/unwrap_or` default absorbed into a `0` default, and `Option`
where presence of a key matters), `Instant` timestamps become `ℚ` values
supplied with each event, and the `rand` sources become explicit sampler
oracles.  Each definition mirrors one function or code block of `main.rs`.
-/

/-! ## Character / string helpers (Rust `split_whitespace`, `trim`, `lines`) -/

/-- ASCII whitespace, matching Rust `char::is_whitespace` on the ASCII range
(the program only handles single-byte-width characters). -/
def isWs (c : Char) : Bool :=
  c = ' ' ∨ c = '\t' ∨ c = '\n' ∨ c = '\x0b' ∨ c = '\x0c' ∨ c = '\r'

/-- Accumulating worker for `splitWs`; `acc` is the reversed current token. -/
def splitWsAux : List Char → List Char → List (List Char)
  | acc, [] => if acc = [] then [] else [acc.reverse]
  | acc, c :: rest =>
      if isWs c then
        (if acc = [] then splitWsAux [] rest else acc.reverse :: splitWsAux [] rest)
      else splitWsAux (c :: acc) rest

/-- Rust `str::split_whitespace` collected to a list: the maximal runs of
non-whitespace characters. -/
def splitWs (l : List Char) : List (List Char) := splitWsAux [] l

/-- The `input_text.split_whitespace().count()` computation of `run_test`. -/
def countTokens (l : List Char) : ℕ := (splitWs l).length

/-- Rust `str::trim` on the ASCII range. -/
def trimChars (l : List Char) : List Char :=
  ((l.dropWhile isWs).reverse.dropWhile isWs).reverse

/-- Split at every newline, keeping empty segments (worker for `linesOf`). -/
def splitOnNlAux : List Char → List Char → List (List Char)
  | acc, [] => [acc.reverse]
  | acc, c :: rest =>
      if c = '\n' then acc.reverse :: splitOnNlAux [] rest
      else splitOnNlAux (c :: acc) rest

/-- Rust `str::lines`: split on newlines, with no empty final segment for a
trailing newline (the per-line `\r` stripping is subsumed by the `trim`
applied to every line at the only call site, `AppState.load`). -/
def linesOf (s : List Char) : List (List Char) :=
  if s.getLast? = some '\n' then (splitOnNlAux [] s).dropLast
  else if s = [] then [] else splitOnNlAux [] s

/-! ## Data model (`Settings`, `TestResult`, `UserData`, `AppState`) -/

/-- Rust `struct Settings` of `main.rs`. -/
structure Settings where
  forgive_errors : Bool
  default_time_limit : ℕ
  default_words_limit : ℕ
  show_wpm_live : Bool
  auto_save_results : Bool
  min_accuracy_to_save : ℚ

/-- Rust `impl Default for Settings`. -/
def Settings.default : Settings :=
  { forgive_errors := false
    default_time_limit := 60
    default_words_limit := 25
    show_wpm_live := true
    auto_save_results := true
    min_accuracy_to_save := 1/2 }

/-- Rust `struct TestResult` of `main.rs` (the wall-clock `timestamp` field, a
`DateTime<Local>` side effect, is not part of any verified property and is
omitted). -/
structure TestResult where
  raw_wpm : ℚ
  wpm : ℚ
  accuracy : ℚ
  time_taken : ℚ
  text_length : ℕ
  words_typed : ℕ

/-- Rust `struct UserData` of `main.rs`.  The count/total `HashMap`s are read and
written exclusively through `entry(..).or_insert(0)` / `unwrap_or(&0)`, so an
absent key is indistinguishable from a stored `0` and they are modelled as
total functions defaulting to `0`; for `letter_accuracy` and `letter_wpm`
key presence is observable (the §3 invariants speak about it), so they keep
an `Option`. -/
structure UserData where
  letter_shown : Char → ℕ
  letter_correct : Char → ℕ
  letter_accuracy : Char → Option ℚ
  letter_time_total : Char → ℚ
  letter_time_count : Char → ℕ
  letter_wpm : Char → Option ℚ

/-- Rust `UserData::default()`: every map empty. -/
def UserData.default : UserData :=
  { letter_shown := fun _ => 0
    letter_correct := fun _ => 0
    letter_accuracy := fun _ => none
    letter_time_total := fun _ => 0
    letter_time_count := fun _ => 0
    letter_wpm := fun _ => none }

/-- Rust `struct AppState` of `main.rs`. -/
structure AppState where
  settings : Settings
  user_data : UserData
  words_list : List (List Char)

/-! ## Word selector (`AppState::get_weighted_words`) -/

/-- The `frequency` table built at the top of `get_weighted_words`:
standard English letter frequencies for the 26 lowercase letters. -/
def frequency : Char → Option ℚ
  | 'e' => some 12.02
  | 't' => some 9.10
  | 'a' => some 8.12
  | 'o' => some 7.68
  | 'i' => some 7.31
  | 'n' => some 6.95
  | 's' => some 6.28
  | 'r' => some 6.02
  | 'h' => some 5.92
  | 'd' => some 4.32
  | 'l' => some 3.98
  | 'u' => some 2.88
  | 'c' => some 2.71
  | 'm' => some 2.61
  | 'f' => some 2.30
  | 'y' => some 2.11
  | 'w' => some 2.09
  | 'g' => some 2.03
  | 'p' => some 1.82
  | 'b' => some 1.49
  | 'v' => some 1.11
  | 'k' => some 0.69
  | 'x' => some 0.17
  | 'q' => some 0.11
  | 'j' => some 0.10
  | 'z' => some 0.07
  | _ => none

/-- The body of the `for ch in ' '..='~'` loop of `get_weighted_words`: the
weight stored in `letter_weight` for a printable character `ch`. -/
def letter_weight (u : UserData) (ch : Char) : ℚ :=
  let acc := (u.letter_accuracy ch).getD 0
  let wpm := (u.letter_wpm ch).getD 0
  let inv_acc := if acc > 1/100 then 1/acc else 20
  let wpm_weight := 1 / (wpm + 1/10)
  match frequency ch with
  | some f => inv_acc * f * wpm_weight
  | none => 1

/-- The `letter_weight.get(&ch).unwrap_or(&1.0)` lookup used when scoring a
word: the map holds entries exactly for `' '..='~'`, any other character
falls back to `1.0`. -/
def letter_weight_tbl (u : UserData) (ch : Char) : ℚ :=
  if ' ' ≤ ch ∧ ch ≤ '~' then letter_weight u ch else 1

/-- Per-word average letter weight (the `word_weights` loop of
`get_weighted_words`): sum of character weights over word length, `0` for an
empty word. -/
def word_weight (u : UserData) (word : List Char) : ℚ :=
  let weight := (word.map (letter_weight_tbl u)).sum
  let len : ℚ := word.length
  if 0 < len then weight / len else 0

/-- The drawing phase of `get_weighted_words`, before the final
`join(" ")`.  `rand` is abstracted by two index oracles: `wsamp` stands for
`WeightedIndex::sample` (which always yields an in-range index) and `usamp`
for `SliceRandom::choose` on a non-empty slice.  `WeightedIndex::new`
succeeds exactly when the weight list is non-empty, every weight is
non-negative and the total is positive; otherwise the uniform fallback
branch runs. -/
def get_weighted_words (u : UserData) (words : List (List Char))
    (wsamp usamp : ℕ → Fin words.length) (count : ℕ) : List (List Char) :=
  let word_weights := words.map (word_weight u)
  if word_weights ≠ [] ∧ (∀ w ∈ word_weights, 0 ≤ w) ∧ 0 < word_weights.sum then
    (List.range count).map fun i => words.get (wsamp i)
  else
    (List.range count).map fun i => words.get (usamp i)

/-! ## Stats tracker (`AppState::update_stats`) -/

/-- Rust `AppState::update_stats` of `main.rs`, acting on the `UserData` it
mutates.  Reads of `s`/`c`/`total_time`/`count` happen after the
increments, exactly as in the source. -/
def update_stats (u : UserData) (ch : Char) (is_correct : Bool)
    (time_taken : ℚ) : UserData :=
  let shown := fun d => if d = ch then u.letter_shown d + 1 else u.letter_shown d
  let correct := if is_correct
    then fun d => if d = ch then u.letter_correct d + 1 else u.letter_correct d
    else u.letter_correct
  let time_total := if is_correct
    then fun d => if d = ch then u.letter_time_total d + time_taken else u.letter_time_total d
    else u.letter_time_total
  let time_count := if is_correct
    then fun d => if d = ch then u.letter_time_count d + 1 else u.letter_time_count d
    else u.letter_time_count
  let s : ℚ := shown ch
  let c : ℚ := correct ch
  let accuracy := if 0 < s
    then fun d => if d = ch then some (c / s) else u.letter_accuracy d
    else u.letter_accuracy
  let total_time := time_total ch
  let count := time_count ch
  let wpm := if 0 < count ∧ 0 < total_time
    then fun d => if d = ch then some (12 / (total_time / (count : ℚ))) else u.letter_wpm d
    else u.letter_wpm
  { letter_shown := shown
    letter_correct := correct
    letter_accuracy := accuracy
    letter_time_total := time_total
    letter_time_count := time_count
    letter_wpm := wpm }

/-- A whole sequence of `update_stats` calls (one per recorded keystroke:
target character, correctness, latency). -/
def applyRecords (u : UserData) (recs : List (Char × Bool × ℚ)) : UserData :=
  recs.foldl (fun a r => update_stats a r.1 r.2.1 r.2.2) u

/-- The §3 `Lexicon` invariant: correct ≤ shown for every character, the
stored accuracy equals correct/shown whenever the character has been shown,
and a derived speed exists only when at least one correct latency sample
does. -/
def StatsInv (u : UserData) : Prop :=
  ∀ c : Char,
    u.letter_correct c ≤ u.letter_shown c ∧
    (0 < u.letter_shown c →
      u.letter_accuracy c =
        some ((u.letter_correct c : ℚ) / (u.letter_shown c : ℚ))) ∧
    ((u.letter_wpm c).isSome → 0 < u.letter_time_count c)

/-! ## Startup loading (`AppState::load`) -/

/-- The `DEFAULT_WORDS_STR` constant of `main.rs`. -/
def DEFAULT_WORDS_STR : String := "the be to of and a in that have I it for not on with he as you do at this but his by from they we say her she or an will my one all would there their what so up out if about who get which go me when make can like time no just him know take people into year your good some could them see other than then now look only come its over think also back after use two how our work first well way even new want because any these give day most us"

/-- The baked-in fallback word list: `DEFAULT_WORDS_STR.split_whitespace()`. -/
def defaultWords : List (List Char) := splitWs DEFAULT_WORDS_STR.toList

/-- Rust `AppState::load` of `main.rs`.  File system and JSON are abstracted: each
file is an `Option (List Char)` (`fs::read_to_string(..).ok()`) and the two
`serde_json::from_str(..).ok()` parsers are oracle functions returning
`Option`.  A missing or unparsable file falls back with `unwrap_or_default`
/ `unwrap_or_else`. -/
def AppState.load (settingsFile userFile wordsFile : Option (List Char))
    (parseSettings : List Char → Option Settings)
    (parseUser : List Char → Option UserData) : AppState :=
  { settings := (settingsFile.bind parseSettings).getD Settings.default
    user_data := (userFile.bind parseUser).getD UserData.default
    words_list :=
      match wordsFile with
      | some s => (linesOf s).map trimChars
      | none => defaultWords }

/-! ## Session engine (`run_test`) -/

/-- Rust `enum TestMode` of `main.rs`. -/
inductive TestMode where
  | time : ℕ → TestMode
  | words : ℕ → TestMode
  | forever : TestMode

/-- One polled input event of the `run_test` loop.  `tick` is a poll timeout
(no event within 16 ms), `other` any key the `match` ignores. -/
inductive Ev where
  | tick : Ev
  | esc : Ev
  | back : Ev
  | char : Char → Ev
  | other : Ev

/-- The mutable locals of `run_test` that survive a loop iteration.
`Instant` values are rationals on an abstract wall-clock. -/
structure SessionState where
  target : List Char
  input : List Char
  last_keystroke : ℚ
  is_started : Bool
  real_start_time : ℚ
  should_exit : Bool
  completed : Bool
  user : UserData

/-- The "Check if Time Mode is finished" block: `is_started && elapsed >=
limit` (for an integer limit, `elapsed.as_secs() >= limit` is equivalent to
`elapsed >= limit`). -/
def timeExpired (mode : TestMode) (now : ℚ) (s : SessionState) : Bool :=
  match mode with
  | .time limit => s.is_started && decide ((limit : ℚ) ≤ now - s.real_start_time)
  | _ => false

/-- The `matches!(mode, TestMode::Time(_) | TestMode::Forever)` test. -/
def isContinuous : TestMode → Bool
  | .time _ => true
  | .forever => true
  | .words _ => false

/-- The "Buffer management for continuous modes" block: when
`input_text.len() + 50 > target_text.len()`, push a space and a fresh batch
of 20 words.  `sel` abstracts `app.get_weighted_words(n)` already joined
with single spaces (its draws are stochastic; `get_weighted_words` above is
the verified model of the batch itself). -/
def extendTarget (mode : TestMode) (sel : ℕ → List Char) (s : SessionState) :
    List Char :=
  if isContinuous mode ∧ s.target.length < s.input.length + 50 then
    s.target ++ ' ' :: sel 20
  else s.target

/-- The `elapsed` computation at the top of each iteration:
`if is_started { real_start_time.elapsed() } else { Duration::from_secs(0) }`. -/
def liveElapsed (s : SessionState) (now : ℚ) : ℚ :=
  if s.is_started then now - s.real_start_time else 0

/-- The `KeyCode::Char(c)` arm of `run_test` up to (not including) the word
-limit completion check: start the timer on the first character keystroke,
then, if the text is not done, record latency and correctness into
`update_stats` and append to the buffer unless forgiveness rejects the
keystroke. -/
def procChar (forgive : Bool) (now : ℚ) (c : Char) (s : SessionState) :
    SessionState :=
  let s1 := if s.is_started then s
    else { s with is_started := true, real_start_time := now, last_keystroke := now }
  if hlt : s1.input.length < s1.target.length then
    let delta := now - s1.last_keystroke
    let target_char := s1.target.get ⟨s1.input.length, hlt⟩
    let is_correct : Bool := c == target_char
    let u := update_stats s1.user target_char is_correct delta
    let input := if is_correct || !forgive then s1.input ++ [c] else s1.input
    { s1 with last_keystroke := now, user := u, input := input }
  else s1

/-- The "Check Word Limit Completion" block, run after every character
keystroke: in Words mode, complete when the whitespace-token count reaches
the limit and the buffer ends in `' '`, or when the buffer has the target's
length. -/
def checkWords (mode : TestMode) (s : SessionState) : SessionState :=
  match mode with
  | .words limit =>
      if (limit ≤ countTokens s.input ∧ s.input.getLast? = some ' ') ∨
          s.input.length = s.target.length
      then { s with completed := true } else s
  | _ => s

/-- One iteration of the `while !should_exit && !completed` loop of
`run_test` (rendering, which only writes `scroll_offset`, is skipped): the
time-limit check, then buffer extension for continuous modes, then the
polled event, then (for a character) the word-limit completion check.  When
the loop guard fails no iteration runs and the state is unchanged. -/
def step (forgive : Bool) (sel : ℕ → List Char) (mode : TestMode) (now : ℚ)
    (ev : Ev) (s : SessionState) : SessionState :=
  if s.should_exit = true ∨ s.completed = true then s
  else if timeExpired mode now s = true then { s with completed := true }
  else
    let s0 := { s with target := extendTarget mode sel s }
    match ev with
    | .tick => s0
    | .other => s0
    | .esc => { s0 with should_exit := true }
    | .back => { s0 with input := s0.input.dropLast }
    | .char c => checkWords mode (procChar forgive now c s0)

/-- Running the loop over a whole trace of timestamped events. -/
def runLoop (forgive : Bool) (sel : ℕ → List Char) (mode : TestMode)
    (evs : List (ℚ × Ev)) (s : SessionState) : SessionState :=
  evs.foldl (fun a p => step forgive sel mode p.1 p.2 a) s

/-! ## Result synthesis (the `if completed` block of `run_test`) -/

/-- The `correct_chars` loop: the number of buffer positions `i` with
`i < target.len()` whose target character equals the buffer character
(`target.get? i = input.get? i` packages both conditions, since
`i < input.length` makes `input.get? i` a `some`). -/
def correctChars (target input : List Char) : ℕ :=
  (List.range input.length).countP fun i => decide (target.get? i = input.get? i)

/-- The final `TestResult` synthesis of `run_test` for a completed session:
raw WPM from character count and elapsed seconds, accuracy as the matching
fraction (0 for an empty buffer, stored ×100), net WPM = raw × accuracy. -/
def mkResult (target input : List Char) (elapsed : ℚ) : TestResult :=
  let chars := input.length
  let words := countTokens input
  let raw_wpm := ((chars : ℚ) / 5) / (elapsed / 60)
  let accuracy : ℚ := if 0 < chars then (correctChars target input : ℚ) / (chars : ℚ) else 0
  let net_wpm := raw_wpm * accuracy
  { raw_wpm := raw_wpm
    wpm := net_wpm
    accuracy := accuracy * 100
    time_taken := elapsed
    text_length := chars
    words_typed := words }

/-! ## The spec's weighting formula (for comparison with `letter_weight`) -/

/-- Modelled from the spec's weighting sentence: the accuracy factor,
"inverse of that character's current accuracy, using a fallback constant
when accuracy is unknown or near zero". -/
def specAccFactor (u : UserData) (ch : Char) : ℚ :=
  let acc := (u.letter_accuracy ch).getD 0
  if acc > 1/100 then 1/acc else 20

/-- Modelled from the spec's weighting sentence: the speed factor, "inverse
of the character's historical speed offset by 0.1". -/
def specSpeedFactor (u : UserData) (ch : Char) : ℚ :=
  1 / ((u.letter_wpm ch).getD 0 + 1/10)

/-- The claim's weight formula taken literally: accuracy factor × (English
frequency, `0` when the character is not in the 26-letter table) × speed
factor. -/
def claimWeight (u : UserData) (ch : Char) : ℚ :=
  specAccFactor u ch * ((frequency ch).getD 0) * specSpeedFactor u ch

/-! ## Concrete fixtures used by witnesses and counterexamples -/

/-- A degenerate batch-selection oracle returning the single word `q`. -/
def selX : ℕ → List Char := fun _ => ['q']

/-- A settings parser standing for a malformed `settings.json`. -/
def noSettings : List Char → Option Settings := fun _ => none

/-- A user-data parser standing for a malformed `userdata.json`. -/
def noUser : List Char → Option UserData := fun _ => none

/-- A two-word lexicon. -/
def lexAB : List (List Char) := [['a'], ['b']]

/-- A constant sampler over `lexAB`. -/
def sampAB : ℕ → Fin lexAB.length := fun _ => ⟨0, by decide⟩

/-- A fresh session on target `ab`: nothing typed, not started. -/
def sInitAb : SessionState :=
  ⟨['a', 'b'], [], 0, false, 0, false, false, UserData.default⟩

/-- A running session on target `a ` with `a` already typed. -/
def sW : SessionState :=
  ⟨['a', ' '], ['a'], 0, true, 0, false, false, UserData.default⟩

/-- A running session on target `cat` with `c` already typed. -/
def sC4 : SessionState :=
  ⟨['c','a','t'], ['c'], 1, true, 0, false, false, UserData.default⟩

/-- A fresh session on target `cat`. -/
def sCat : SessionState :=
  ⟨['c','a','t'], [], 0, false, 0, false, false, UserData.default⟩

/-- A running session on the one-character target `a`, started at time 0. -/
def sTimeUp : SessionState :=
  ⟨['a'], [], 0, true, 0, false, false, UserData.default⟩

/-- The nine characters of the example target `the be to`. -/
def theBeTo : List Char := ['t','h','e',' ','b','e',' ','t','o']

/-! ## C2: net WPM law and result synthesis -/

/-- Claim C2: for every completed session the synthesized result has
raw WPM = (chars/5)/(elapsed minutes), net WPM = raw × accuracy (with the
stored accuracy a percentage in [0,100], so accuracy 100 gives net = raw);
and for target `the be to` typed perfectly in 9 seconds, raw WPM is 12,
accuracy 100 and net WPM 12. -/
theorem net_wpm_law :
    (∀ (target input : List Char) (elapsed : ℚ),
      (mkResult target input elapsed).raw_wpm =
          ((input.length : ℚ) / 5) / (elapsed / 60) ∧
      (mkResult target input elapsed).wpm =
          (mkResult target input elapsed).raw_wpm *
            ((mkResult target input elapsed).accuracy / 100) ∧
      0 ≤ (mkResult target input elapsed).accuracy ∧
      (mkResult target input elapsed).accuracy ≤ 100 ∧
      ((mkResult target input elapsed).accuracy = 100 →
        (mkResult target input elapsed).wpm = (mkResult target input elapsed).raw_wpm)) ∧
    ((mkResult theBeTo theBeTo 9).raw_wpm = 12 ∧
     (mkResult theBeTo theBeTo 9).accuracy = 100 ∧
     (mkResult theBeTo theBeTo 9).wpm = 12) := by
  constructor
  · intro target input elapsed
    have hcc : correctChars target input ≤ input.length := by
      have := List.countP_le_length
        (fun i => decide (target.get? i = input.get? i)) (l := List.range input.length)
      simpa [correctChars] using this
    simp only [mkResult]
    set a : ℚ :=
      (if 0 < input.length then
        ((correctChars target input : ℚ) / (input.length : ℚ)) else 0) with ha
    have ha0 : 0 ≤ a := by
      rw [ha]; split
      · positivity
      · exact le_refl 0
    have ha1 : a ≤ 1 := by
      rw [ha]; split
      · exact div_le_one_of_le₀ (by exact_mod_cast hcc) (by positivity)
      · exact zero_le_one
    refine ⟨by trivial, ?_, ?_, ?_, ?_⟩
    · rw [mul_div_cancel_right₀ a (by norm_num : (100 : ℚ) ≠ 0)]
    · exact mul_nonneg ha0 (by norm_num)
    · nlinarith
    · intro h
      have : a = 1 := by linarith
      rw [this, mul_one]
  · have h9 : correctChars theBeTo theBeTo = 9 := by decide
    have hl : theBeTo.length = 9 := by decide
    refine ⟨?_, ?_, ?_⟩ <;> simp [mkResult, h9, hl] <;> norm_num

/-- Witness for C2: the perfect 9-second example satisfies the
accuracy-100 hypothesis, and net WPM equals raw WPM there. -/
theorem net_wpm_law_witness :
    (mkResult theBeTo theBeTo 9).accuracy = 100 ∧
    (mkResult theBeTo theBeTo 9).wpm = (mkResult theBeTo theBeTo 9).raw_wpm :=
  ⟨net_wpm_law.2.2.1, (net_wpm_law.1 theBeTo theBeTo 9).2.2.2.2 net_wpm_law.2.2.1⟩

/-! ## C3: the letter-weighting formula -/

/-- Counterexample to claim C3: `0` is printable and outside the 26-letter
frequency table, so the claim's formula gives it weight `… × 0 × … = 0`,
but the code stores the constant `1.0` for every such character. -/
theorem weight_formula_cex :
    (' ' ≤ '0' ∧ '0' ≤ '~') ∧ frequency '0' = none ∧
    letter_weight UserData.default '0' = 1 ∧
    claimWeight UserData.default '0' = 0 ∧
    letter_weight UserData.default '0' ≠ claimWeight UserData.default '0' := by
  have h1 : letter_weight UserData.default '0' = 1 := rfl
  have h0 : claimWeight UserData.default '0' = 0 := by
    simp [claimWeight, specAccFactor, specSpeedFactor, frequency, UserData.default]
  refine ⟨by decide, rfl, h1, h0, ?_⟩
  rw [h1, h0]; norm_num

/-- Claim C3 amended: for every printable character (`' ' ≤ ch ≤ '~'`) the
stored weight follows the spec's formula — accuracy factor × English
frequency × speed factor — when the character is in the 26-letter table,
and is the constant `1.0` (not `0`) for printable characters outside it. -/
theorem weight_formula (u : UserData) (ch : Char)
    (h1 : ' ' ≤ ch) (h2 : ch ≤ '~') :
    letter_weight_tbl u ch =
      match frequency ch with
      | some _ => claimWeight u ch
      | none => 1 := by
  rw [letter_weight_tbl, if_pos ⟨h1, h2⟩, letter_weight]
  cases hf : frequency ch <;>
    simp [hf, claimWeight, specAccFactor, specSpeedFactor]

/-- Witness for the amended C3 at the in-table letter `e`. -/
theorem weight_formula_witness :
    (' ' ≤ 'e' ∧ 'e' ≤ '~') ∧
    letter_weight_tbl UserData.default 'e' =
      (match frequency 'e' with
       | some _ => claimWeight UserData.default 'e'
       | none => 1) :=
  ⟨by decide, weight_formula UserData.default 'e' (by decide) (by decide)⟩

/-! ## C8: the selection contract -/

/-- Claim C8: for every count and non-empty lexicon the selection returns
exactly `count` words, each an element of the lexicon, in both the
weighted branch and the uniform fallback branch. -/
theorem select_words (u : UserData) (words : List (List Char))
    (hne : words ≠ []) (wsamp usamp : ℕ → Fin words.length) (count : ℕ) :
    (get_weighted_words u words wsamp usamp count).length = count ∧
    ∀ w ∈ get_weighted_words u words wsamp usamp count, w ∈ words := by
  simp only [get_weighted_words]
  split <;>
  · refine ⟨by simp, ?_⟩
    intro w hw
    simp only [List.mem_map, List.mem_range] at hw
    obtain ⟨i, -, rfl⟩ := hw
    exact List.get_mem _ _ _

/-- Witness for C8 on a concrete two-word lexicon. -/
theorem select_words_witness :
    lexAB ≠ [] ∧
    (get_weighted_words UserData.default lexAB sampAB sampAB 3).length = 3 :=
  ⟨by decide, (select_words UserData.default lexAB (by decide) sampAB sampAB 3).1⟩

/-! ## C9: load-time fallbacks -/

/-- Claim C9: a missing or malformed settings or user-aggregate file falls
back to the documented defaults, and a missing word-list file falls back to
the baked-in default English list; the loader is total, so no such failure
surfaces as an error. -/
theorem load_fallbacks (settingsFile userFile wordsFile : Option (List Char))
    (parseSettings : List Char → Option Settings)
    (parseUser : List Char → Option UserData) :
    ((settingsFile = none ∨ ∃ s, settingsFile = some s ∧ parseSettings s = none) →
      (AppState.load settingsFile userFile wordsFile parseSettings parseUser).settings
        = Settings.default) ∧
    ((userFile = none ∨ ∃ s, userFile = some s ∧ parseUser s = none) →
      (AppState.load settingsFile userFile wordsFile parseSettings parseUser).user_data
        = UserData.default) ∧
    (wordsFile = none →
      (AppState.load settingsFile userFile wordsFile parseSettings parseUser).words_list
        = defaultWords) := by
  refine ⟨?_, ?_, ?_⟩
  · rintro (rfl | ⟨s, rfl, hp⟩)
    · simp [AppState.load]
    · simp [AppState.load, hp]
  · rintro (rfl | ⟨s, rfl, hp⟩)
    · simp [AppState.load]
    · simp [AppState.load, hp]
  · rintro rfl
    simp [AppState.load]

/-- Witness for C9: a missing settings file, a malformed user-data file and
a missing word list all fall back. -/
theorem load_fallbacks_witness :
    (AppState.load none (some []) none noSettings noUser).settings = Settings.default ∧
    (AppState.load none (some []) none noSettings noUser).user_data = UserData.default ∧
    (AppState.load none (some []) none noSettings noUser).words_list = defaultWords :=
  ⟨(load_fallbacks none (some []) none noSettings noUser).1 (Or.inl rfl),
   (load_fallbacks none (some []) none noSettings noUser).2.1 (Or.inr ⟨[], rfl, rfl⟩),
   (load_fallbacks none (some []) none noSettings noUser).2.2 rfl⟩

/-! ## C5: the stats-tracker invariant -/

/-- Pointwise value of the shown counter after one `update_stats` call. -/
theorem update_stats_shown (u : UserData) (ch : Char) (b : Bool) (t : ℚ)
    (d : Char) :
    (update_stats u ch b t).letter_shown d =
      if d = ch then u.letter_shown d + 1 else u.letter_shown d := rfl

/-- Pointwise value of the correct counter after one `update_stats` call. -/
theorem update_stats_correct (u : UserData) (ch : Char) (b : Bool) (t : ℚ)
    (d : Char) :
    (update_stats u ch b t).letter_correct d =
      if b = true ∧ d = ch then u.letter_correct d + 1 else u.letter_correct d := by
  cases b <;> by_cases hd : d = ch <;> simp [update_stats, hd]

/-- Pointwise value of the cumulative correct latency after one
`update_stats` call. -/
theorem update_stats_time_total (u : UserData) (ch : Char) (b : Bool) (t : ℚ)
    (d : Char) :
    (update_stats u ch b t).letter_time_total d =
      if b = true ∧ d = ch then u.letter_time_total d + t else u.letter_time_total d := by
  cases b <;> by_cases hd : d = ch <;> simp [update_stats, hd]

/-- Pointwise value of the latency sample counter after one `update_stats`
call. -/
theorem update_stats_time_count (u : UserData) (ch : Char) (b : Bool) (t : ℚ)
    (d : Char) :
    (update_stats u ch b t).letter_time_count d =
      if b = true ∧ d = ch then u.letter_time_count d + 1 else u.letter_time_count d := by
  cases b <;> by_cases hd : d = ch <;> simp [update_stats, hd]

/-- Pointwise value of the stored accuracy after one `update_stats` call:
the updated character always gets `correct/shown` (its shown counter was
just incremented, so the `s > 0` guard holds), other characters keep their
old entry. -/
theorem update_stats_accuracy (u : UserData) (ch : Char) (b : Bool) (t : ℚ)
    (d : Char) :
    (update_stats u ch b t).letter_accuracy d =
      if d = ch then
        some (((update_stats u ch b t).letter_correct ch : ℚ) /
          ((update_stats u ch b t).letter_shown ch : ℚ))
      else u.letter_accuracy d := by
  have hq : (0 : ℚ) < (u.letter_shown ch : ℚ) + 1 := by positivity
  cases b <;> by_cases hd : d = ch <;>
    simp [update_stats, hd, hq]

/-- Pointwise value of the stored speed after one `update_stats` call: the
updated character gets a new entry exactly when its (updated) sample count
and cumulative latency are positive; every other character keeps its old
entry. -/
theorem update_stats_wpm (u : UserData) (ch : Char) (b : Bool) (t : ℚ)
    (d : Char) :
    (update_stats u ch b t).letter_wpm d =
      if 0 < (update_stats u ch b t).letter_time_count ch ∧
          0 < (update_stats u ch b t).letter_time_total ch then
        (if d = ch then
          some (12 / ((update_stats u ch b t).letter_time_total ch /
            ((update_stats u ch b t).letter_time_count ch : ℚ)))
         else u.letter_wpm d)
      else u.letter_wpm d := by
  cases b <;>
    simp only [update_stats] <;>
    rw [apply_ite (fun f : Char → Option ℚ => f d)]

/-- One `update_stats` call preserves the §3 aggregate invariant. -/
theorem update_stats_inv {u : UserData} (h : StatsInv u) (ch : Char)
    (b : Bool) (t : ℚ) : StatsInv (update_stats u ch b t) := by
  intro d
  obtain ⟨h1, h2, h3⟩ := h d
  refine ⟨?_, ?_, ?_⟩
  · rw [update_stats_shown, update_stats_correct]
    by_cases hd : d = ch
    · subst hd
      cases b <;> simp <;> omega
    · have hb : ¬(b = true ∧ d = ch) := fun hc => hd hc.2
      rw [if_neg hd, if_neg hb]
      exact h1
  · intro hs
    rw [update_stats_accuracy]
    by_cases hd : d = ch
    · subst hd; rw [if_pos rfl]
    · rw [if_neg hd, update_stats_correct, update_stats_shown] at *
      rw [if_neg hd] at hs
      have hb : ¬(b = true ∧ d = ch) := fun hc => hd hc.2
      rw [if_neg hb, if_neg hd]
      exact h2 hs
  · intro hw
    rw [update_stats_wpm] at hw
    by_cases hd : d = ch
    · subst hd
      split at hw
      · rename_i hc
        exact hc.1
      · have hold := h3 hw
        rw [update_stats_time_count]
        split <;> omega
    · simp only [hd, if_false, ite_self] at hw
      rw [update_stats_time_count]
      have hb : ¬(b = true ∧ d = ch) := fun hc => hd hc.2
      rw [if_neg hb]
      exact h3 hw

/-- A whole record sequence preserves the invariant. -/
theorem applyRecords_inv {u : UserData} (h : StatsInv u)
    (recs : List (Char × Bool × ℚ)) : StatsInv (applyRecords u recs) := by
  induction recs generalizing u with
  | nil => exact h
  | cons r rs ih =>
      simp only [applyRecords, List.foldl_cons]
      exact ih (update_stats_inv h r.1 r.2.1 r.2.2)

/-- Claim C5: after any sequence of `update_stats` calls from a valid
state, correct-count ≤ shown-count for every character; whenever
shown-count is positive the stored accuracy exists, lies in [0,1] and
equals correct/shown; and a derived speed exists only with at least one
correct latency sample. -/
theorem stats_invariant (u : UserData) (recs : List (Char × Bool × ℚ))
    (h : StatsInv u) :
    StatsInv (applyRecords u recs) ∧
    ∀ c : Char, 0 < (applyRecords u recs).letter_shown c →
      ∃ a : ℚ, (applyRecords u recs).letter_accuracy c = some a ∧
        0 ≤ a ∧ a ≤ 1 ∧
        a = ((applyRecords u recs).letter_correct c : ℚ) /
            ((applyRecords u recs).letter_shown c : ℚ) := by
  have hi := applyRecords_inv h recs
  refine ⟨hi, fun c hc => ?_⟩
  obtain ⟨h1, h2, h3⟩ := hi c
  refine ⟨_, h2 hc, ?_, ?_, rfl⟩
  · positivity
  · exact div_le_one_of_le₀ (by exact_mod_cast h1) (by positivity)

/-- Witness for C5: the empty aggregates are valid, and the invariant holds
after a concrete record sequence (one miss then one hit on `a`). -/
theorem stats_invariant_witness :
    StatsInv UserData.default ∧
    StatsInv (applyRecords UserData.default [('a', false, 1), ('a', true, 2)]) ∧
    (applyRecords UserData.default [('a', false, 1), ('a', true, 2)]).letter_shown 'a' = 2 ∧
    (applyRecords UserData.default [('a', false, 1), ('a', true, 2)]).letter_correct 'a' = 1 := by
  have h0 : StatsInv UserData.default := by
    intro c
    refine ⟨Nat.le_refl 0, fun hs => absurd hs (by simp [UserData.default]), fun hw => ?_⟩
    simp [UserData.default] at hw
  refine ⟨h0,
    (stats_invariant UserData.default [('a', false, 1), ('a', true, 2)] h0).1, ?_, ?_⟩
  · rfl
  · rfl

/-! ## Session-engine step characterizations -/

/-- If the mode is not Fixed-Time, the time check never fires. -/
theorem timeExpired_words (limit : ℕ) (now : ℚ) (s : SessionState) :
    timeExpired (.words limit) now s = false := rfl

/-- A session that has not started never trips the time check
(`is_started && …` is false). -/
theorem timeExpired_of_not_started (mode : TestMode) (now : ℚ)
    (s : SessionState) (h : s.is_started = false) :
    timeExpired mode now s = false := by
  cases mode <;> simp [timeExpired, h]

/-- With the loop guard open and the time check passed, a `tick` iteration
only (possibly) extends the target. -/
theorem step_tick_eq (f : Bool) (sel : ℕ → List Char) (mode : TestMode)
    (now : ℚ) (s : SessionState) (hex : s.should_exit = false)
    (hco : s.completed = false) (ht : timeExpired mode now s = false) :
    step f sel mode now .tick s = { s with target := extendTarget mode sel s } := by
  simp [step, hex, hco, ht]

/-- Same for an ignored key. -/
theorem step_other_eq (f : Bool) (sel : ℕ → List Char) (mode : TestMode)
    (now : ℚ) (s : SessionState) (hex : s.should_exit = false)
    (hco : s.completed = false) (ht : timeExpired mode now s = false) :
    step f sel mode now .other s = { s with target := extendTarget mode sel s } := by
  simp [step, hex, hco, ht]

/-- An escape keystroke sets the exit flag. -/
theorem step_esc_eq (f : Bool) (sel : ℕ → List Char) (mode : TestMode)
    (now : ℚ) (s : SessionState) (hex : s.should_exit = false)
    (hco : s.completed = false) (ht : timeExpired mode now s = false) :
    step f sel mode now .esc s =
      { s with target := extendTarget mode sel s, should_exit := true } := by
  simp [step, hex, hco, ht]

/-- A backspace pops the last buffer character. -/
theorem step_back_eq (f : Bool) (sel : ℕ → List Char) (mode : TestMode)
    (now : ℚ) (s : SessionState) (hex : s.should_exit = false)
    (hco : s.completed = false) (ht : timeExpired mode now s = false) :
    step f sel mode now .back s =
      { s with target := extendTarget mode sel s, input := s.input.dropLast } := by
  simp [step, hex, hco, ht]

/-- A character keystroke runs `procChar` on the extended target, then the
word-limit completion check. -/
theorem step_char_eq (f : Bool) (sel : ℕ → List Char) (mode : TestMode)
    (now : ℚ) (c : Char) (s : SessionState) (hex : s.should_exit = false)
    (hco : s.completed = false) (ht : timeExpired mode now s = false) :
    step f sel mode now (.char c) s =
      checkWords mode (procChar f now c { s with target := extendTarget mode sel s }) := by
  simp [step, hex, hco, ht]

/-- A time-expired iteration marks the session completed and does nothing
else. -/
theorem step_time_done (f : Bool) (sel : ℕ → List Char) (mode : TestMode)
    (now : ℚ) (ev : Ev) (s : SessionState) (hex : s.should_exit = false)
    (hco : s.completed = false) (ht : timeExpired mode now s = true) :
    step f sel mode now ev s = { s with completed := true } := by
  simp [step, hex, hco, ht]

/-- A closed guard (exited or completed) means no iteration runs. -/
theorem step_guard (f : Bool) (sel : ℕ → List Char) (mode : TestMode)
    (now : ℚ) (ev : Ev) (s : SessionState)
    (h : s.should_exit = true ∨ s.completed = true) :
    step f sel mode now ev s = s := by
  simp [step, h]

/-- The start-handling part of a character keystroke. -/
def startOf (now : ℚ) (s : SessionState) : SessionState :=
  if s.is_started = true then s
  else { s with is_started := true, real_start_time := now, last_keystroke := now }

/-- When the text is not done, a character keystroke records the keystroke
against the current target character and appends it to the buffer unless
forgiveness rejects it. -/
theorem procChar_spec (f : Bool) (now : ℚ) (c : Char) (s : SessionState)
    (hlt : s.input.length < s.target.length) :
    procChar f now c s =
      { startOf now s with
        last_keystroke := now,
        user := update_stats s.user (s.target.get ⟨s.input.length, hlt⟩)
          (c == s.target.get ⟨s.input.length, hlt⟩)
          (now - (startOf now s).last_keystroke),
        input := if (c == s.target.get ⟨s.input.length, hlt⟩) || !f
          then s.input ++ [c] else s.input } := by
  by_cases hs : s.is_started = true <;>
    simp [procChar, startOf, hs, hlt]

/-- When the buffer already has the target's length, a character keystroke
only (possibly) starts the timer. -/
theorem procChar_full (f : Bool) (now : ℚ) (c : Char) (s : SessionState)
    (h : ¬ s.input.length < s.target.length) :
    procChar f now c s = startOf now s := by
  by_cases hs : s.is_started = true <;>
    simp [procChar, startOf, hs, h]

/-- The completion check never touches the buffer, target, timing or
statistics fields. -/
theorem checkWords_fields (mode : TestMode) (s : SessionState) :
    (checkWords mode s).input = s.input ∧
    (checkWords mode s).target = s.target ∧
    (checkWords mode s).user = s.user ∧
    (checkWords mode s).is_started = s.is_started ∧
    (checkWords mode s).real_start_time = s.real_start_time ∧
    (checkWords mode s).last_keystroke = s.last_keystroke ∧
    (checkWords mode s).should_exit = s.should_exit := by
  cases mode <;> simp only [checkWords] <;>
    refine ⟨?_, ?_, ?_, ?_, ?_, ?_, ?_⟩ <;> (try split) <;> first | rfl | trivial

/-- In Words mode the completion flag after the check is set exactly by the
token-count/terminal-space condition or buffer-fills-target condition. -/
theorem checkWords_completed_iff (limit : ℕ) (s : SessionState)
    (h : s.completed = false) :
    (checkWords (.words limit) s).completed = true ↔
      ((limit ≤ countTokens s.input ∧ s.input.getLast? = some ' ') ∨
        s.input.length = s.target.length) := by
  simp only [checkWords]
  split
  · rename_i hc
    simp [hc]
  · rename_i hc
    simp [h, hc]

/-- Outside Words mode the completion check is the identity. -/
theorem checkWords_time (limit : ℕ) (s : SessionState) :
    checkWords (.time limit) s = s := rfl

/-- Outside Words mode the completion check is the identity. -/
theorem checkWords_forever (s : SessionState) :
    checkWords .forever s = s := rfl

/-- Fields a character keystroke never changes (and the start flag, which
it always leaves set). -/
theorem procChar_basic (f : Bool) (now : ℚ) (c : Char) (s : SessionState) :
    (procChar f now c s).completed = s.completed ∧
    (procChar f now c s).should_exit = s.should_exit ∧
    (procChar f now c s).target = s.target ∧
    (procChar f now c s).is_started = true ∧
    (procChar f now c s).real_start_time = (startOf now s).real_start_time := by
  by_cases hs : s.is_started = true <;>
    by_cases hlt : s.input.length < s.target.length <;>
    simp [procChar, startOf, hs, hlt]

/-! ## C1: the Fixed-Word-Count completion law -/

/-- Claim C1: with the loop guard open, a Fixed-Word-Count(limit) step
completes the session exactly when the event is a character keystroke and,
after it is processed, the whitespace-delimited token count of the buffer
has reached the limit with the buffer ending in a separator space, or the
buffer length equals the target length. -/
theorem words_completion_law (f : Bool) (sel : ℕ → List Char) (limit : ℕ)
    (now : ℚ) (ev : Ev) (s : SessionState)
    (hex : s.should_exit = false) (hco : s.completed = false) :
    (step f sel (.words limit) now ev s).completed = true ↔
      (∃ c, ev = Ev.char c) ∧
        ((limit ≤ countTokens (step f sel (.words limit) now ev s).input ∧
          (step f sel (.words limit) now ev s).input.getLast? = some ' ') ∨
         (step f sel (.words limit) now ev s).input.length =
           (step f sel (.words limit) now ev s).target.length) := by
  have ht := timeExpired_words limit now s
  cases ev
  case tick => rw [step_tick_eq f sel _ now s hex hco ht]; simp [hco]
  case esc => rw [step_esc_eq f sel _ now s hex hco ht]; simp [hco]
  case back => rw [step_back_eq f sel _ now s hex hco ht]; simp [hco]
  case other => rw [step_other_eq f sel _ now s hex hco ht]; simp [hco]
  case char c =>
    rw [step_char_eq f sel _ now c s hex hco ht]
    have hfields :=
      checkWords_fields (.words limit)
        (procChar f now c { s with target := extendTarget (.words limit) sel s })
    have htc : (procChar f now c
        { s with target := extendTarget (.words limit) sel s }).completed = false := by
      rw [(procChar_basic f now c _).1]
      exact hco
    rw [checkWords_completed_iff limit _ htc, hfields.1, hfields.2.1]
    constructor
    · intro hcond
      exact ⟨⟨c, rfl⟩, hcond⟩
    · intro hcond
      exact hcond.2

/-- Witness for C1: typing the final space of `a ` in a one-word session
completes it (token count 1 ≥ 1 and the buffer ends in a space). -/
theorem words_completion_law_witness :
    (step false selX (.words 1) 2 (.char ' ') sW).completed = true :=
  (words_completion_law false selX 1 2 (.char ' ') sW rfl rfl).mpr
    ⟨⟨' ', rfl⟩, Or.inl (by decide)⟩

/-! ## C4: forgiveness records the miss but blocks the buffer -/

/-- Claim C4: with error-forgiveness on, a non-matching character keystroke
is still forwarded to the stats tracker — recorded against the current
target character as incorrect, with its latency — while the buffer stays
unchanged; and in the concrete run on target `cat` with keys `c`,`x`,`a`,
`t`, the `x` is recorded against target character `a` (shown 2, correct 1)
and the final buffer is `cat`. -/
theorem forgiveness_blocks :
    (∀ (sel : ℕ → List Char) (mode : TestMode) (now : ℚ) (c : Char)
      (s : SessionState),
      s.should_exit = false → s.completed = false →
      timeExpired mode now s = false → s.is_started = true →
      ∀ (hlt : s.input.length < (extendTarget mode sel s).length),
      c ≠ (extendTarget mode sel s).get ⟨s.input.length, hlt⟩ →
      (step true sel mode now (.char c) s).input = s.input ∧
      (step true sel mode now (.char c) s).user =
        update_stats s.user ((extendTarget mode sel s).get ⟨s.input.length, hlt⟩)
          false (now - s.last_keystroke)) ∧
    ((runLoop true selX (.words 5)
        [(1, .char 'c'), (2, .char 'x'), (3, .char 'a'), (4, .char 't')]
        sCat).input = ['c', 'a', 't'] ∧
     (runLoop true selX (.words 5)
        [(1, .char 'c'), (2, .char 'x'), (3, .char 'a'), (4, .char 't')]
        sCat).user.letter_shown 'a' = 2 ∧
     (runLoop true selX (.words 5)
        [(1, .char 'c'), (2, .char 'x'), (3, .char 'a'), (4, .char 't')]
        sCat).user.letter_correct 'a' = 1) := by
  constructor
  · intro sel mode now c s hex hco ht hst hlt hne
    rw [step_char_eq true sel mode now c s hex hco ht]
    have hfields := checkWords_fields mode
      (procChar true now c { s with target := extendTarget mode sel s })
    have hlt' : ({ s with target := extendTarget mode sel s } : SessionState).input.length <
        ({ s with target := extendTarget mode sel s } : SessionState).target.length := hlt
    rw [hfields.1, hfields.2.2.1, procChar_spec true now c _ hlt']
    simp only [startOf, hst, if_true, ite_true]
    refine ⟨?_, ?_⟩
    · simp
      exact hne
    · congr 1
      exact beq_eq_false_iff_ne.mpr hne
  · refine ⟨by decide, by decide, by decide⟩

/-- Witness for C4: the `x` keystroke at position 1 of `cat` under
forgiveness leaves the buffer at `c` and records an incorrect `a`. -/
theorem forgiveness_blocks_witness :
    (step true selX (.words 5) 2 (.char 'x') sC4).input = ['c'] ∧
    (step true selX (.words 5) 2 (.char 'x') sC4).user =
      update_stats sC4.user 'a' false (2 - 1) := by
  have h := forgiveness_blocks.1 selX (.words 5) 2 'x' sC4 rfl rfl rfl rfl
    (by decide) (by decide)
  exact ⟨h.1, h.2⟩

/-! ## C6: NotStarted behaviour and the start transition -/

/-- Unfolding one iteration of the loop. -/
theorem runLoop_cons (f : Bool) (sel : ℕ → List Char) (mode : TestMode)
    (p : ℚ × Ev) (evs : List (ℚ × Ev)) (s : SessionState) :
    runLoop f sel mode (p :: evs) s =
      runLoop f sel mode evs (step f sel mode p.1 p.2 s) := rfl

/-- The empty trace leaves the state unchanged. -/
theorem runLoop_nil (f : Bool) (sel : ℕ → List Char) (mode : TestMode)
    (s : SessionState) : runLoop f sel mode [] s = s := rfl

/-- A character keystroke on a not-yet-started session resets the
last-keystroke timestamp to now. -/
theorem procChar_last_of_not_started (f : Bool) (now : ℚ) (c : Char)
    (s : SessionState) (h : s.is_started = false) :
    (procChar f now c s).last_keystroke = now := by
  by_cases hlt : s.input.length < s.target.length
  · rw [procChar_spec f now c s hlt]
  · rw [procChar_full f now c s hlt]
    simp [startOf, h]

/-- Claim C6: a session in NotStarted never runs its timer (live elapsed is
0) and never completes without a character keystroke — in particular a
Fixed-Time session receiving only poll timeouts stays NotStarted and
uncompleted forever, and only the cancel signal sets its exit flag; the
NotStarted → Running transition happens exactly on the first character
keystroke, which records the start timestamp and resets the last-keystroke
timestamp to now; and once started, the start timestamp is fixed. -/
theorem notstarted_behaviour :
    (∀ (f : Bool) (sel : ℕ → List Char) (limit : ℕ) (nows : List ℚ)
        (s : SessionState),
        s.is_started = false → s.completed = false → s.should_exit = false →
        (runLoop f sel (.time limit) (nows.map fun t => (t, Ev.tick)) s).is_started
            = false ∧
        (runLoop f sel (.time limit) (nows.map fun t => (t, Ev.tick)) s).completed
            = false ∧
        (runLoop f sel (.time limit) (nows.map fun t => (t, Ev.tick)) s).should_exit
            = false) ∧
    (∀ (s : SessionState) (now : ℚ), s.is_started = false →
        liveElapsed s now = 0) ∧
    (∀ (f : Bool) (sel : ℕ → List Char) (mode : TestMode) (now : ℚ)
        (s : SessionState), s.should_exit = false → s.completed = false →
        timeExpired mode now s = false →
        (step f sel mode now .esc s).should_exit = true) ∧
    (∀ (f : Bool) (sel : ℕ → List Char) (mode : TestMode) (now : ℚ) (c : Char)
        (s : SessionState),
        s.is_started = false → s.completed = false → s.should_exit = false →
        (step f sel mode now (.char c) s).is_started = true ∧
        (step f sel mode now (.char c) s).real_start_time = now ∧
        (step f sel mode now (.char c) s).last_keystroke = now) ∧
    (∀ (f : Bool) (sel : ℕ → List Char) (mode : TestMode) (now : ℚ) (ev : Ev)
        (s : SessionState), s.is_started = true →
        (step f sel mode now ev s).is_started = true ∧
        (step f sel mode now ev s).real_start_time = s.real_start_time) ∧
    (∀ (f : Bool) (sel : ℕ → List Char) (mode : TestMode) (now : ℚ) (ev : Ev)
        (s : SessionState), s.is_started = false → (∀ c, ev ≠ Ev.char c) →
        (step f sel mode now ev s).is_started = false ∧
        (step f sel mode now ev s).completed = s.completed) := by
  refine ⟨?_, ?_, ?_, ?_, ?_, ?_⟩
  · intro f sel limit nows s
    induction nows generalizing s with
    | nil => intro h1 h2 h3; exact ⟨h1, h2, h3⟩
    | cons t ts ih =>
        intro h1 h2 h3
        rw [List.map_cons, runLoop_cons]
        have ht := timeExpired_of_not_started (.time limit) t s h1
        rw [step_tick_eq f sel _ t s h3 h2 ht]
        exact ih _ h1 h2 h3
  · intro s now h
    simp [liveElapsed, h]
  · intro f sel mode now s hex hco ht
    rw [step_esc_eq f sel mode now s hex hco ht]
  · intro f sel mode now c s h1 h2 h3
    have ht := timeExpired_of_not_started mode now s h1
    rw [step_char_eq f sel mode now c s h3 h2 ht]
    have hfields := checkWords_fields mode
      (procChar f now c { s with target := extendTarget mode sel s })
    have hbasic := procChar_basic f now c
      { s with target := extendTarget mode sel s }
    refine ⟨?_, ?_, ?_⟩
    · rw [hfields.2.2.2.1, hbasic.2.2.2.1]
    · rw [hfields.2.2.2.2.1, hbasic.2.2.2.2]
      simp [startOf, h1]
    · rw [hfields.2.2.2.2.2.1]
      exact procChar_last_of_not_started f now c _ h1
  · intro f sel mode now ev s h1
    by_cases hg : s.should_exit = true ∨ s.completed = true
    · rw [step_guard f sel mode now ev s hg]
      exact ⟨h1, rfl⟩
    · push_neg at hg
      have hex : s.should_exit = false := by
        cases hx : s.should_exit
        · rfl
        · exact absurd hx hg.1
      have hco : s.completed = false := by
        cases hx : s.completed
        · rfl
        · exact absurd hx hg.2
      by_cases ht : timeExpired mode now s = true
      · rw [step_time_done f sel mode now ev s hex hco ht]
        exact ⟨h1, rfl⟩
      · have ht' : timeExpired mode now s = false := by
          cases hx : timeExpired mode now s
          · rfl
          · exact absurd hx ht
        cases ev
        · rw [step_tick_eq f sel mode now s hex hco ht']; exact ⟨h1, rfl⟩
        · rw [step_esc_eq f sel mode now s hex hco ht']; exact ⟨h1, rfl⟩
        · rw [step_back_eq f sel mode now s hex hco ht']; exact ⟨h1, rfl⟩
        · rename_i c
          have hfields := checkWords_fields mode
            (procChar f now c { s with target := extendTarget mode sel s })
          have hbasic := procChar_basic f now c
            { s with target := extendTarget mode sel s }
          rw [step_char_eq f sel mode now c s hex hco ht']
          refine ⟨?_, ?_⟩
          · rw [hfields.2.2.2.1, hbasic.2.2.2.1]
          · rw [hfields.2.2.2.2.1, hbasic.2.2.2.2]
            simp [startOf, h1]
        · rw [step_other_eq f sel mode now s hex hco ht']; exact ⟨h1, rfl⟩
  · intro f sel mode now ev s h1 hnc
    by_cases hg : s.should_exit = true ∨ s.completed = true
    · rw [step_guard f sel mode now ev s hg]
      exact ⟨h1, rfl⟩
    · push_neg at hg
      have hex : s.should_exit = false := by
        cases hx : s.should_exit
        · rfl
        · exact absurd hx hg.1
      have hco : s.completed = false := by
        cases hx : s.completed
        · rfl
        · exact absurd hx hg.2
      have ht' := timeExpired_of_not_started mode now s h1
      cases ev
      · rw [step_tick_eq f sel mode now s hex hco ht']; exact ⟨h1, rfl⟩
      · rw [step_esc_eq f sel mode now s hex hco ht']; exact ⟨h1, rfl⟩
      · rw [step_back_eq f sel mode now s hex hco ht']; exact ⟨h1, rfl⟩
      · rename_i c
        exact absurd rfl (hnc c)
      · rw [step_other_eq f sel mode now s hex hco ht']; exact ⟨h1, rfl⟩

/-- Witness for C6: a fresh Fixed-Time(60) session stays NotStarted and
uncompleted through three poll timeouts, its live timer reads 0, and a
first character keystroke at time 5 starts it and records both timestamps. -/
theorem notstarted_behaviour_witness :
    (runLoop false selX (.time 60) ([1, 2, 3].map fun t => (t, Ev.tick))
      sInitAb).is_started = false ∧
    (runLoop false selX (.time 60) ([1, 2, 3].map fun t => (t, Ev.tick))
      sInitAb).completed = false ∧
    liveElapsed sInitAb 7 = 0 ∧
    (step false selX (.time 60) 5 (.char 'a') sInitAb).is_started = true ∧
    (step false selX (.time 60) 5 (.char 'a') sInitAb).real_start_time = 5 ∧
    (step false selX (.time 60) 5 (.char 'a') sInitAb).last_keystroke = 5 :=
  ⟨(notstarted_behaviour.1 false selX 60 [1, 2, 3] sInitAb rfl rfl rfl).1,
   (notstarted_behaviour.1 false selX 60 [1, 2, 3] sInitAb rfl rfl rfl).2.1,
   notstarted_behaviour.2.1 sInitAb 7 rfl,
   (notstarted_behaviour.2.2.2.1 false selX (.time 60) 5 'a' sInitAb rfl rfl rfl).1,
   (notstarted_behaviour.2.2.2.1 false selX (.time 60) 5 'a' sInitAb rfl rfl rfl).2.1,
   (notstarted_behaviour.2.2.2.1 false selX (.time 60) 5 'a' sInitAb rfl rfl rfl).2.2⟩

/-! ## C7: buffer growth in continuous modes -/

/-- Counterexample to claim C7 as stated: a Fixed-Time iteration whose time
has expired completes the session without extending the target, even though
the remaining text (1 character) is below the 50-character margin — the
time completion check precedes the buffer extension in the loop. -/
theorem continuous_extension_cex :
    isContinuous (.time 1) = true ∧
    sTimeUp.target.length < sTimeUp.input.length + 50 ∧
    (step false selX (.time 1) 5 Ev.tick sTimeUp).completed = true ∧
    (step false selX (.time 1) 5 Ev.tick sTimeUp).target = sTimeUp.target ∧
    (step false selX (.time 1) 5 Ev.tick sTimeUp).target ≠
      sTimeUp.target ++ ' ' :: selX 20 := by
  have ht : timeExpired (.time 1) 5 sTimeUp = true := by
    simp [timeExpired, sTimeUp]
  have hs := step_time_done false selX (.time 1) 5 Ev.tick sTimeUp rfl rfl ht
  refine ⟨rfl, by decide, ?_, ?_, ?_⟩
  · rw [hs]
  · rw [hs]
  · rw [hs]
    decide

/-- Claim C7 amended: on every continuous-mode iteration that passes the
Fixed-Time completion check, if the remaining unconsumed target text is
shorter than the 50-character lookahead margin the target is extended by a
separating space and a freshly selected 20-word batch, and the extension
happens before keystroke processing and before the word-count completion
check.  (An iteration that completes by the time check — which the code
runs first — does not extend; see the counterexample.) -/
theorem continuous_extension (f : Bool) (sel : ℕ → List Char)
    (mode : TestMode) (now : ℚ) (ev : Ev) (s : SessionState)
    (hex : s.should_exit = false) (hco : s.completed = false)
    (ht : timeExpired mode now s = false)
    (hcont : isContinuous mode = true)
    (hrem : s.target.length < s.input.length + 50) :
    (step f sel mode now ev s).target = s.target ++ ' ' :: sel 20 := by
  have hext : extendTarget mode sel s = s.target ++ ' ' :: sel 20 := by
    simp [extendTarget, hcont, hrem]
  cases ev
  · rw [step_tick_eq f sel mode now s hex hco ht]; exact hext
  · rw [step_esc_eq f sel mode now s hex hco ht]; exact hext
  · rw [step_back_eq f sel mode now s hex hco ht]; exact hext
  · rename_i c
    rw [step_char_eq f sel mode now c s hex hco ht,
      (checkWords_fields mode _).2.1, (procChar_basic f now c _).2.2.1]
    exact hext
  · rw [step_other_eq f sel mode now s hex hco ht]; exact hext

/-- Witness for the amended C7: with the limit not yet reached, a tick with
1 remaining character extends the target by a space and the fresh batch. -/
theorem continuous_extension_witness :
    (step false selX (.time 1) (1/2) Ev.tick sTimeUp).target =
      sTimeUp.target ++ ' ' :: selX 20 :=
  continuous_extension false selX (.time 1) (1/2) Ev.tick sTimeUp rfl rfl
    (by simp [timeExpired, sTimeUp]; norm_num) rfl (by decide)

/-! ## C10: forgiveness keeps the buffer a prefix of the target -/

/-- Appending a correct character extends a taken prefix by one. -/
theorem take_push (t : List Char) (n : ℕ) (h : n < t.length) :
    t.take n ++ [t.get ⟨n, h⟩] = t.take (n + 1) := by
  rw [List.take_succ, List.get_eq_getElem, List.getElem?_eq_getElem h]
  rfl

/-- Dropping the last element of a taken prefix takes one fewer. -/
theorem take_dropLast (t : List Char) (n : ℕ) (h : n ≤ t.length) :
    (t.take n).dropLast = t.take (n - 1) := by
  rw [List.dropLast_eq_take, List.take_take, List.length_take]
  congr 1
  omega

/-- Starting the timer never changes the buffer or the target. -/
theorem startOf_fields (now : ℚ) (s : SessionState) :
    (startOf now s).input = s.input ∧ (startOf now s).target = s.target := by
  rw [startOf]
  split <;> exact ⟨rfl, rfl⟩

/-- One forgiving step preserves "the buffer is the length-n prefix of the
target": the only appended characters are the matching target characters,
backspace shortens the prefix, and target extension leaves it intact. -/
theorem step_prefix_inv (sel : ℕ → List Char) (mode : TestMode) (now : ℚ)
    (ev : Ev) (s : SessionState)
    (h : s.input = s.target.take s.input.length) :
    (step true sel mode now ev s).input =
      (step true sel mode now ev s).target.take
        (step true sel mode now ev s).input.length := by
  have hle : s.input.length ≤ s.target.length := by
    have hl := congrArg List.length h
    rw [List.length_take] at hl
    omega
  have hext : s.input = (extendTarget mode sel s).take s.input.length := by
    rw [extendTarget]
    split
    · rw [List.take_append_of_le_length hle]
      exact h
    · exact h
  have hlext : s.input.length ≤ (extendTarget mode sel s).length := by
    have hl := congrArg List.length hext
    rw [List.length_take] at hl
    omega
  by_cases hg : s.should_exit = true ∨ s.completed = true
  · rw [step_guard true sel mode now ev s hg]
    exact h
  · push_neg at hg
    have hex : s.should_exit = false := by
      cases hx : s.should_exit
      · rfl
      · exact absurd hx hg.1
    have hco : s.completed = false := by
      cases hx : s.completed
      · rfl
      · exact absurd hx hg.2
    by_cases ht : timeExpired mode now s = true
    · rw [step_time_done true sel mode now ev s hex hco ht]
      exact h
    · have ht' : timeExpired mode now s = false := by
        cases hx : timeExpired mode now s
        · rfl
        · exact absurd hx ht
      cases ev
      · rw [step_tick_eq true sel mode now s hex hco ht']
        exact hext
      · rw [step_esc_eq true sel mode now s hex hco ht']
        exact hext
      · rw [step_back_eq true sel mode now s hex hco ht']
        show s.input.dropLast = (extendTarget mode sel s).take s.input.dropLast.length
        rw [List.length_dropLast]
        calc s.input.dropLast
            = ((extendTarget mode sel s).take s.input.length).dropLast := by rw [← hext]
          _ = (extendTarget mode sel s).take (s.input.length - 1) :=
              take_dropLast _ _ hlext
      · rename_i c
        rw [step_char_eq true sel mode now c s hex hco ht']
        have hfields := checkWords_fields mode
          (procChar true now c { s with target := extendTarget mode sel s })
        rw [hfields.1, hfields.2.1]
        by_cases hlt : ({ s with target := extendTarget mode sel s } :
            SessionState).input.length <
            ({ s with target := extendTarget mode sel s } : SessionState).target.length
        · rw [procChar_spec true now c _ hlt]
          dsimp only
          rw [(startOf_fields now { s with target := extendTarget mode sel s }).2]
          dsimp only
          have hlt' : s.input.length < (extendTarget mode sel s).length := hlt
          by_cases hc :
              (c == (extendTarget mode sel s).get ⟨s.input.length, hlt'⟩) = true
          · have hcEq := beq_iff_eq.mp hc
            subst hcEq
            simp only [hc, Bool.true_or, if_true]
            rw [List.length_append]
            simp only [List.length_singleton]
            have h2 := take_push (extendTarget mode sel s) s.input.length hlt'
            rw [← hext] at h2
            exact h2
          · have hcf : (c == (extendTarget mode sel s).get
                ⟨s.input.length, hlt'⟩) = false := by
              cases hx : (c == (extendTarget mode sel s).get ⟨s.input.length, hlt'⟩)
              · rfl
              · exact absurd hx hc
            simp only [hcf, Bool.false_or, Bool.not_true, if_false]
            exact hext
        · rw [procChar_full true now c _ hlt]
          simp only [startOf]
          split <;> exact hext
      · rw [step_other_eq true sel mode now s hex hco ht']
        exact hext

/-- The prefix invariant holds at every state reachable under forgiveness. -/
theorem runLoop_prefix_inv (sel : ℕ → List Char) (mode : TestMode)
    (evs : List (ℚ × Ev)) (s : SessionState)
    (h : s.input = s.target.take s.input.length) :
    (runLoop true sel mode evs s).input =
      (runLoop true sel mode evs s).target.take
        (runLoop true sel mode evs s).input.length := by
  induction evs generalizing s with
  | nil => exact h
  | cons p ps ih =>
      rw [runLoop_cons]
      exact ih _ (step_prefix_inv sel mode p.1 p.2 s h)

/-- A non-empty buffer that is a prefix of the target yields accuracy 100
and net WPM equal to raw WPM. -/
theorem mkResult_perfect (target input : List Char) (elapsed : ℚ)
    (h : input = target.take input.length) (hne : input ≠ []) :
    (mkResult target input elapsed).accuracy = 100 ∧
    (mkResult target input elapsed).wpm = (mkResult target input elapsed).raw_wpm := by
  have hlen : 0 < input.length := List.length_pos.mpr hne
  have hcc : correctChars target input = input.length := by
    rw [correctChars]
    have hall : ∀ i ∈ List.range input.length,
        (fun i => decide (target.get? i = input.get? i)) i = true := by
      intro i hi
      rw [List.mem_range] at hi
      simp only [decide_eq_true_eq]
      conv_rhs => rw [h]
      exact (List.get?_take hi).symm
    rw [List.countP_eq_length.mpr hall, List.length_range]
  have hfrac : (if 0 < input.length then
      ((correctChars target input : ℚ) / (input.length : ℚ)) else 0) = 1 := by
    rw [if_pos hlen, hcc]
    exact div_self (by positivity)
  constructor
  · show (if 0 < input.length then
        ((correctChars target input : ℚ) / (input.length : ℚ)) else 0) * 100 = 100
    rw [hfrac]
    norm_num
  · show ((input.length : ℚ) / 5) / (elapsed / 60) *
        (if 0 < input.length then
          ((correctChars target input : ℚ) / (input.length : ℚ)) else 0) =
      ((input.length : ℚ) / 5) / (elapsed / 60)
    rw [hfrac, mul_one]

/-- Claim C10: with error-forgiveness on, from any state whose buffer is a
position-wise prefix of the target, the buffer stays a prefix of the target
at every reachable state, so every completed forgiving session with a
non-empty buffer reports accuracy exactly 100 and net WPM equal to raw
WPM. -/
theorem forgiveness_perfect (sel : ℕ → List Char) (mode : TestMode)
    (evs : List (ℚ × Ev)) (s : SessionState)
    (h : s.input = s.target.take s.input.length) :
    (runLoop true sel mode evs s).input =
      (runLoop true sel mode evs s).target.take
        (runLoop true sel mode evs s).input.length ∧
    ∀ (elapsed : ℚ), (runLoop true sel mode evs s).input ≠ [] →
      (mkResult (runLoop true sel mode evs s).target
        (runLoop true sel mode evs s).input elapsed).accuracy = 100 ∧
      (mkResult (runLoop true sel mode evs s).target
        (runLoop true sel mode evs s).input elapsed).wpm =
        (mkResult (runLoop true sel mode evs s).target
          (runLoop true sel mode evs s).input elapsed).raw_wpm := by
  have hp := runLoop_prefix_inv sel mode evs s h
  exact ⟨hp, fun elapsed hne => mkResult_perfect _ _ elapsed hp hne⟩

/-- Witness for C10: a forgiving run on target `cat` typing `c`, a wrong
`x`, then `a` keeps the buffer (`ca`) a prefix of the target and reports
accuracy 100. -/
theorem forgiveness_perfect_witness :
    (runLoop true selX (.words 5)
      [(1, Ev.char 'c'), (2, Ev.char 'x'), (3, Ev.char 'a')] sCat).input =
      (runLoop true selX (.words 5)
        [(1, Ev.char 'c'), (2, Ev.char 'x'), (3, Ev.char 'a')] sCat).target.take
        (runLoop true selX (.words 5)
          [(1, Ev.char 'c'), (2, Ev.char 'x'), (3, Ev.char 'a')] sCat).input.length ∧
    (mkResult (runLoop true selX (.words 5)
        [(1, Ev.char 'c'), (2, Ev.char 'x'), (3, Ev.char 'a')] sCat).target
      (runLoop true selX (.words 5)
        [(1, Ev.char 'c'), (2, Ev.char 'x'), (3, Ev.char 'a')] sCat).input 9).accuracy
      = 100 := by
  have h := forgiveness_perfect selX (.words 5)
    [(1, Ev.char 'c'), (2, Ev.char 'x'), (3, Ev.char 'a')] sCat rfl
  exact ⟨h.1, (h.2 9 (by decide)).1⟩
